import Mathlib

/-!
Shallow embedding of `src/dsp/lowpass.cxx` (class `LowPass`), a decimating
FIR lowpass filter.

Modelling conventions:
* `float` samples and coefficients are idealised as real numbers `ℝ`;
  the complex FFTW buffers are idealised as `ℂ`.
* `unsigned int` arithmetic is `ℕ`, with an explicit `% U32` (`U32 = 2 ^ 32`)
  exactly where 32-bit wraparound is reachable: the `_firLength * _passband`
  product in `recalculate`, the `++decimationCount` increment and the
  `idx - 1` / `headpos + 1` index updates in `process`.  Divisions and the
  `out * dec` product in `init` cannot overflow (`out * (rate / out) ≤ rate`).
* The C `x & (_firLength - 1)` masks are kept literally as `x &&& (N - 1)`.
* Arrays (`window`, `coeff`, `spec`, per-channel `fir` rows) are modelled as
  total functions from indices; the program only ever reads indices below
  `_firLength`, and the theorems are stated on that range.
* The scratch buffer `impulse` (output of the FFTW plan) is not part of the
  state: it is recomputed from `spec` on every use, which is how
  `recalculate` uses it.
* Framework state owned by the `DspBlock` base class (`isRunning()`,
  `inputSampleRate()`, `inputChannels()`) is passed to each operation as an
  explicit argument.
-/

namespace Webradio

/-- Modulus of C `unsigned int` arithmetic (32-bit). -/
def U32 : ℕ := 2 ^ 32

/-- Source: `#define FIR_LENGTH 64` (lowpass.cxx line 19). -/
def FIR_LENGTH : ℕ := 64

/-- Modelled from the spec: `DEFAULT_SAMPLE_RATE` is defined in a header of
this repository that is not under `src/` (the constructor initialiser list
uses it for `_reqOutputRate`).  The spec's worked examples all use an ambient
sample rate of 48000, so the model fixes it to 48000; the claims about it
rely only on it being non-zero. -/
def DEFAULT_SAMPLE_RATE : ℕ := 48000

/-- State of a `LowPass` object.  Field names follow the C++ members
(`_firLength`, `_passband`, `headpos`, `decimationCount`, `_decimation`,
`_reqOutputRate`, `_outputSampleRate`, `_outputChannels`, `spec`, `window`,
`coeff`, `fir`), with the leading underscore dropped. -/
structure LowPass where
  firLength : ℕ
  passband : ℕ
  headpos : ℕ
  decimationCount : ℕ
  decimation : ℕ
  reqOutputRate : ℕ
  outputSampleRate : ℕ
  outputChannels : ℕ
  spec : ℕ → ℂ
  window : ℕ → ℝ
  coeff : ℕ → ℝ
  fir : ℕ → ℕ → ℝ

/-- Constructor `LowPass::LowPass` (lines 21-30).  Members not mentioned in
the initialiser list are uninitialised in C++; they are taken here as
arbitrary parameters. -/
def mkLowPass (outRate0 outCh0 : ℕ) (spec0 : ℕ → ℂ) (window0 coeff0 : ℕ → ℝ)
    (fir0 : ℕ → ℕ → ℝ) : LowPass :=
  { firLength := FIR_LENGTH
    passband := 0
    headpos := 0
    decimationCount := 0
    decimation := 0
    reqOutputRate := DEFAULT_SAMPLE_RATE
    outputSampleRate := outRate0
    outputChannels := outCh0
    spec := spec0
    window := window0
    coeff := coeff0
    fir := fir0 }

/-- Hamming window built in `LowPass::init` (lines 93-99):
`window[n] = 0.54 - 0.46 * cosf(2 * M_PI * n / (_firLength - 1))`, then
`window[n] /= _firLength`.  `_firLength - 1` is unsigned subtraction, hence
truncated `ℕ` subtraction before the cast to `ℝ`. -/
noncomputable def windowFun (N : ℕ) (n : ℕ) : ℝ :=
  (0.54 - 0.46 * Real.cos (2 * Real.pi * (n : ℝ) / ((N - 1 : ℕ) : ℝ))) / (N : ℝ)

/-- Value written to the design spectrum for loop index `n` in
`LowPass::recalculate` (line 177): `(n < maxbin) ? 1.0 : 0.0`, imaginary
part `0.0`. -/
def specVal (maxbin n : ℕ) : ℂ :=
  if n < maxbin then 1 else 0

/-- One iteration of the spectrum-filling loop (lines 176-179): the value is
assigned both to bin `n` and to the mirror bin `(_firLength - n) & mask`. -/
def specWrite (N : ℕ) (g : ℕ → ℂ) (n : ℕ) (v : ℂ) : ℕ → ℂ :=
  fun m => if m = n ∨ m = (N - n) &&& (N - 1) then v else g m

/-- The spectrum-filling loop of `LowPass::recalculate` (lines 174-180):
`for (n = 0; n < _firLength / 2 + 1; n++)`, writing `specVal` at `n` and its
mirror bin, starting from the previous contents `g` of the `spec` buffer. -/
def buildSpec (N maxbin : ℕ) (g : ℕ → ℂ) : ℕ → ℂ :=
  (List.range (N / 2 + 1)).foldl (fun f n => specWrite N f n (specVal maxbin n)) g

/-- The FFTW plan `fftwf_plan_dft_1d(_firLength, spec, impulse, FFTW_BACKWARD, ...)`
executed at line 182: the unnormalised backward discrete Fourier transform,
`impulse[k] = Σ_{n<N} spec[n] * e^{+2πi n k / N}`. -/
noncomputable def dftInv (N : ℕ) (f : ℕ → ℂ) (k : ℕ) : ℂ :=
  ∑ n in Finset.range N, f n * Complex.exp (2 * (Real.pi : ℂ) * Complex.I * (n : ℂ) * (k : ℂ) / (N : ℂ))

/-- `LowPass::recalculate` (lines 166-196).
`maxbin = _firLength * _passband / inputSampleRate() / 2` — the product is
32-bit unsigned and wraps, hence the `% U32`; the divisions cannot overflow.
Then the spectrum buffer is refilled, the backward FFT is run, and
`coeff[n] = impulse[(n + _firLength/2) & (_firLength-1)][0] * window[n]`.
The unsigned addition `n + _firLength/2` is exact for the indices `n`
(`n < _firLength`) used by the program. -/
noncomputable def LowPass.recalculate (s : LowPass) (inputRate : ℕ) : LowPass :=
  { s with
    spec := buildSpec s.firLength ((s.firLength * s.passband) % U32 / inputRate / 2) s.spec
    coeff := fun n =>
      (dftInv s.firLength
        (buildSpec s.firLength ((s.firLength * s.passband) % U32 / inputRate / 2) s.spec)
        ((n + s.firLength / 2) &&& (s.firLength - 1))).re * s.window n }

/-- `LowPass::setPassband` (lines 37-43): store the passband, and if the
block is running, redesign immediately.  `running` is the framework's
`isRunning()`, `inputRate` its `inputSampleRate()`. -/
noncomputable def LowPass.setPassband (s : LowPass) (running : Bool) (inputRate hz : ℕ) : LowPass :=
  let s' := { s with passband := hz }
  if running then s'.recalculate inputRate else s'

/-- `LowPass::setDecimation` (lines 45-52): a no-op while running; otherwise
store `n` and clear `_reqOutputRate`. -/
def LowPass.setDecimation (s : LowPass) (running : Bool) (n : ℕ) : LowPass :=
  if running then s else { s with decimation := n, reqOutputRate := 0 }

/-- `LowPass::setOutputSampleRate` (lines 54-61): a no-op while running;
otherwise store `hz` and clear `_decimation`. -/
def LowPass.setOutputSampleRate (s : LowPass) (running : Bool) (hz : ℕ) : LowPass :=
  if running then s else { s with reqOutputRate := hz, decimation := 0 }

/-- The two failure modes of `LowPass::init`: "Must specify either decimation
or output rate" (line 73) and "Input rate must be integer multiple of output
rate" (line 80). -/
inductive ConfigurationError where
  | neitherSpecified
  | nonIntegerRatio
deriving DecidableEq

/-- Tail of `LowPass::init` after the decimation/output-rate derivation
(lines 76-110), with the derived `out`/`dec` pair: set `_outputChannels`,
reject a non-integer ratio (`out * dec != inputRate`), zero
`decimationCount` and `headpos`, build the window, zero-fill the per-channel
FIR history (`vector::resize` value-initialises), and run the initial
`recalculate`.  The FFTW plan/buffer allocation has no observable state
beyond `spec`, which `recalculate` refills. -/
noncomputable def initCheck (s : LowPass) (inputRate inputCh out dec : ℕ) :
    Except ConfigurationError LowPass :=
  if out * dec ≠ inputRate then
    Except.error ConfigurationError.nonIntegerRatio
  else
    Except.ok (LowPass.recalculate
      { s with
        outputSampleRate := out
        decimation := dec
        outputChannels := inputCh
        decimationCount := 0
        window := windowFun s.firLength
        fir := fun _ _ => 0
        headpos := 0 } inputRate)

/-- `LowPass::init` (lines 63-111): derive the missing rate/decimation field
(`_reqOutputRate` wins if positive, else `_decimation`, else fail), then
validate and set up as in `initCheck`. -/
noncomputable def LowPass.init (s : LowPass) (inputRate inputCh : ℕ) :
    Except ConfigurationError LowPass :=
  if 0 < s.reqOutputRate then
    initCheck s inputRate inputCh s.reqOutputRate (inputRate / s.reqOutputRate)
  else if 0 < s.decimation then
    initCheck s inputRate inputCh (inputRate / s.decimation) s.decimation
  else
    Except.error ConfigurationError.neitherSpecified

/-- The output sample rate `LowPass::init` derives at lines 67-75 (meaningful
when at least one of `_reqOutputRate`/`_decimation` is set). -/
def derivedOutputRate (s : LowPass) (inputRate : ℕ) : ℕ :=
  if 0 < s.reqOutputRate then s.reqOutputRate else inputRate / s.decimation

/-- The decimation factor `LowPass::init` derives at lines 67-75. -/
def derivedDecimation (s : LowPass) (inputRate : ℕ) : ℕ :=
  if 0 < s.reqOutputRate then inputRate / s.reqOutputRate else s.decimation

/-- C expression `idx - 1` on an `unsigned int`: two's-complement wraparound
subtraction, i.e. `(idx + (2^32 - 1)) % 2^32`. -/
def unsignedDec (idx : ℕ) : ℕ :=
  (idx + (U32 - 1)) % U32

/-- Inner convolution loop of `LowPass::process` (lines 148-155) for one
channel: `for (tap = 0; tap < _firLength; tap++) { acc += coeff[tap] *
fir[c][idx]; idx = (idx - 1) & (_firLength - 1); }`.  The first argument is
the number of remaining iterations, initially `_firLength`. -/
def convLoop (coeff hist : ℕ → ℝ) (N : ℕ) : ℕ → ℕ → ℕ → ℝ → ℝ
  | 0, _, _, acc => acc
  | r + 1, tap, idx, acc =>
      convLoop coeff hist N r (tap + 1) (unsignedDec idx &&& (N - 1))
        (acc + coeff tap * hist idx)

/-- Body of the per-frame `while` loop of `LowPass::process` (lines 135-161):
store one sample per channel at `headpos`, increment `decimationCount`
(unsigned), emit one output frame and reset the counter exactly when it hits
`_decimation`, and advance `headpos` (unsigned increment, then mask). -/
def LowPass.processFrame (s : LowPass) (channels : ℕ) (frame : List ℝ) :
    LowPass × List ℝ :=
  let fir' : ℕ → ℕ → ℝ := fun c i =>
    if c < channels ∧ i = s.headpos then frame.getD c 0 else s.fir c i
  let newCount := (s.decimationCount + 1) % U32
  let headpos' := ((s.headpos + 1) % U32) &&& (s.firLength - 1)
  if newCount = s.decimation then
    ({ s with fir := fir', decimationCount := 0, headpos := headpos' },
     (List.range channels).map fun c =>
       convLoop s.coeff (fir' c) s.firLength s.firLength 0 s.headpos 0)
  else
    ({ s with fir := fir', decimationCount := newCount, headpos := headpos' }, [])

/-- The `while (inframes--)` loop of `LowPass::process`, running `n` frame
iterations over the flat interleaved buffer (each frame consumes `channels`
samples from the front). -/
def LowPass.processLoop (channels : ℕ) : ℕ → LowPass → List ℝ → LowPass × List ℝ
  | 0, s, _ => (s, [])
  | n + 1, s, buf =>
      let r₁ := s.processFrame channels (buf.take channels)
      let r₂ := LowPass.processLoop channels n r₁.1 (buf.drop channels)
      (r₂.1, r₁.2 ++ r₂.2)

/-- `LowPass::process` (lines 127-164): `inframes = inBuffer.size() /
channels` whole frames are processed; the emitted interleaved output frames
are returned as a flat list.  The C function always returns `true`. -/
def LowPass.process (s : LowPass) (channels : ℕ) (inBuffer : List ℝ) :
    LowPass × List ℝ :=
  LowPass.processLoop channels (inBuffer.length / channels) s inBuffer

/-- A sequence of `process` calls on consecutive input blocks, threading the
state and concatenating the outputs (the host's streaming usage). -/
def LowPass.runCalls (channels : ℕ) : LowPass → List (List ℝ) → LowPass × List ℝ
  | s, [] => (s, [])
  | s, b :: bs =>
      let r₁ := s.process channels b
      let r₂ := LowPass.runCalls channels r₁.1 bs
      (r₂.1, r₁.2 ++ r₂.2)

/-- Index of the loop iteration of `buildSpec` that writes bin `m`
(the last, and in fact only, writer of that bin): `m` itself in the first
half, the mirror `N - m` in the second half. -/
def mirrorIdx (N m : ℕ) : ℕ :=
  if m ≤ N / 2 then m else N - m

/-- Modelled from the spec words of the claim (reference definition for the
design spectrum): "a spectrum with real part 1.0 for bins n < maxbin and 0.0
otherwise, imaginary part 0, each value for n in [0, tapCount/2] mirrored to
bin (tapCount - n) mod tapCount", read off pointwise: bin `m` in the first
half carries its own indicator, a bin in the second half carries the
indicator of its mirror source `tapCount - m`. -/
def refSpectrum (N maxbin m : ℕ) : ℂ :=
  if m ≤ N / 2 then (if m < maxbin then 1 else 0)
  else (if N - m < maxbin then 1 else 0)

/-- Modelled from the spec words of the claim (reference definition):
`WindowCoefficients[n] = (0.54 - 0.46 * cos(2*pi*n/(tapCount-1))) / tapCount`. -/
noncomputable def refWindow (N n : ℕ) : ℝ :=
  (0.54 - 0.46 * Real.cos (2 * Real.pi * (n : ℝ) / ((N - 1 : ℕ) : ℝ))) / (N : ℝ)

/-- Modelled from the spec words of the claim (reference definition for the
redesign): `maxbin = floor(tapCount * passbandHz / inputSampleRate / 2)`
(exact integer arithmetic), and `TapCoefficients[n]` is the real component
of the inverse DFT of the reference spectrum read at bin
`(n + tapCount/2) mod tapCount`, multiplied by `WindowCoefficients[n]`. -/
noncomputable def refTap (N passband inputRate n : ℕ) : ℝ :=
  (dftInv N (refSpectrum N (N * passband / inputRate / 2)) ((n + N / 2) % N)).re
    * refWindow N n

/-- A freshly constructed `LowPass` with all uninitialised members zeroed
(concrete object for evaluating the lifecycle operations). -/
def mk0 : LowPass :=
  mkLowPass 0 0 (fun _ => 0) (fun _ => 0) (fun _ => 0) (fun _ _ => 0)

/-- The state produced by starting `mk0` at input rate 48000 with 2
channels (this succeeds: the default requested output rate is 48000, giving
decimation 1). -/
noncomputable def initWitState : LowPass :=
  match mk0.init 48000 2 with
  | Except.ok t => t
  | Except.error _ => mk0

/-- A concrete running state after a successful start: `_firLength = 64`,
passband 6000 Hz, decimation 2, window built by `init`, history zeroed. -/
noncomputable def sRun : LowPass :=
  { firLength := 64
    passband := 6000
    headpos := 0
    decimationCount := 0
    decimation := 2
    reqOutputRate := 0
    outputSampleRate := 24000
    outputChannels := 1
    spec := fun _ => 0
    window := windowFun 64
    coeff := fun _ => 0
    fir := fun _ _ => 0 }

/-- A concrete state with a passband so large that the 32-bit product
`_firLength * _passband` wraps to 0: `64 * 67108864 = 2^32`. -/
noncomputable def sOverflow : LowPass :=
  { firLength := 64
    passband := 67108864
    headpos := 0
    decimationCount := 0
    decimation := 1
    reqOutputRate := 0
    outputSampleRate := 1
    outputChannels := 1
    spec := fun _ => 0
    window := windowFun 64
    coeff := fun _ => 0
    fir := fun _ _ => 0 }

/-- A 6-bit mask is reduction mod 64. -/
theorem and63_eq_mod (x : ℕ) : x &&& 63 = x % 64 := by
  have h : (63 : ℕ) = 2 ^ 6 - 1 := by norm_num
  rw [h, Nat.and_pow_two_sub_one_eq_mod]

/-- Unsigned `idx - 1` followed by the 6-bit mask equals `(idx + 63) % 64`:
the 32-bit wraparound is absorbed because `64` divides `2 ^ 32`. -/
theorem unsignedDec_and63 (idx : ℕ) : unsignedDec idx &&& 63 = (idx + 63) % 64 := by
  unfold unsignedDec
  rw [and63_eq_mod, Nat.mod_mod_of_dvd _ (by norm_num [U32] : (64 : ℕ) ∣ U32)]
  have h : U32 - 1 = 4294967295 := by norm_num [U32]
  rw [h]
  omega

/-- Unsigned `headpos + 1` followed by the 6-bit mask equals
`(headpos + 1) % 64`. -/
theorem unsignedInc_and63 (h : ℕ) : ((h + 1) % U32) &&& 63 = (h + 1) % 64 := by
  rw [and63_eq_mod, Nat.mod_mod_of_dvd _ (by norm_num [U32] : (64 : ℕ) ∣ U32)]

/-- Walking the ring buffer backward: after `t` decrements from `h`, the
index `(h + 63 * t) % 64` is the mathematical `(h - t) mod 64`, written as
`(h + 64 - t) % 64` for `t < 64`. -/
theorem ringIdx_reindex (h t : ℕ) (ht : t < 64) :
    (h + 63 * t) % 64 = (h + 64 - t) % 64 := by
  have e1 : h + 64 - t + 64 * t = h + 63 * t + 64 := by omega
  calc (h + 63 * t) % 64 = (h + 63 * t + 64) % 64 := (Nat.add_mod_right _ _).symm
    _ = (h + 64 - t + 64 * t) % 64 := by rw [e1]
    _ = (h + 64 - t) % 64 := Nat.add_mul_mod_self_left _ _ _

/-- Closed form of the convolution loop at `_firLength = 64`: starting from
tap index `tap`, ring index `idx < 64` and accumulator `acc`, running `r`
iterations adds `Σ_{j<r} coeff[tap+j] * hist[(idx + 63j) % 64]`. -/
theorem convLoop_eq (coeff hist : ℕ → ℝ) (r : ℕ) :
    ∀ (tap idx : ℕ) (acc : ℝ), idx < 64 →
      convLoop coeff hist 64 r tap idx acc
        = acc + ∑ j in Finset.range r, coeff (tap + j) * hist ((idx + 63 * j) % 64) := by
  induction r with
  | zero => intro tap idx acc _; simp [convLoop]
  | succ r ih =>
      intro tap idx acc hidx
      have hmask : unsignedDec idx &&& (64 - 1) = (idx + 63) % 64 := by
        norm_num [unsignedDec_and63]
      rw [convLoop, hmask, ih (tap + 1) ((idx + 63) % 64) _ (Nat.mod_lt _ (by norm_num)),
        Finset.sum_range_succ']
      have hterm : ∀ j, coeff (tap + 1 + j) * hist (((idx + 63) % 64 + 63 * j) % 64)
          = coeff (tap + (j + 1)) * hist ((idx + 63 * (j + 1)) % 64) := by
        intro j
        have h1 : tap + 1 + j = tap + (j + 1) := by omega
        have h2 : ((idx + 63) % 64 + 63 * j) % 64 = (idx + 63 * (j + 1)) % 64 := by
          rw [Nat.mod_add_mod]
          congr 1
          ring
        rw [h1, h2]
      rw [Finset.sum_congr rfl fun j _ => hterm j]
      have h0 : (idx + 63 * 0) % 64 = idx := by
        simpa using Nat.mod_eq_of_lt hidx
      rw [h0]
      simp only [Nat.add_zero]
      ring

/-- Both branches of `processFrame` store the frame at `headpos` in every
channel's history row. -/
theorem processFrame_fir (s : LowPass) (ch : ℕ) (frame : List ℝ) :
    (s.processFrame ch frame).1.fir
      = fun c i => if c < ch ∧ i = s.headpos then frame.getD c 0 else s.fir c i := by
  unfold LowPass.processFrame
  dsimp only
  split <;> rfl

/-- `processFrame` never changes the `_decimation` factor. -/
theorem processFrame_decimation (s : LowPass) (ch : ℕ) (frame : List ℝ) :
    (s.processFrame ch frame).1.decimation = s.decimation := by
  unfold LowPass.processFrame
  dsimp only
  split <;> rfl

/-- When the incremented counter hits `_decimation`, `processFrame` resets
it to 0 and emits one frame of `ch` samples. -/
theorem processFrame_emit (s : LowPass) (ch : ℕ) (frame : List ℝ)
    (h : (s.decimationCount + 1) % U32 = s.decimation) :
    (s.processFrame ch frame).1.decimationCount = 0
    ∧ (s.processFrame ch frame).2.length = ch
    ∧ (s.processFrame ch frame).2
        = (List.range ch).map fun c =>
            convLoop s.coeff
              ((fun c i => if c < ch ∧ i = s.headpos then frame.getD c 0 else s.fir c i) c)
              s.firLength s.firLength 0 s.headpos 0 := by
  unfold LowPass.processFrame
  dsimp only
  rw [if_pos h]
  exact ⟨rfl, by simp, rfl⟩

/-- When the incremented counter misses `_decimation`, `processFrame` keeps
counting and emits nothing. -/
theorem processFrame_noemit (s : LowPass) (ch : ℕ) (frame : List ℝ)
    (h : (s.decimationCount + 1) % U32 ≠ s.decimation) :
    (s.processFrame ch frame).1.decimationCount = (s.decimationCount + 1) % U32
    ∧ (s.processFrame ch frame).2 = [] := by
  unfold LowPass.processFrame
  dsimp only
  rw [if_neg h]
  exact ⟨rfl, rfl⟩

/-- `processFrame` advances `headpos` to `(headpos + 1) % 64` when
`_firLength = 64` (unconditionally, in both branches). -/
theorem processFrame_headpos (s : LowPass) (ch : ℕ) (frame : List ℝ)
    (hfl : s.firLength = 64) :
    (s.processFrame ch frame).1.headpos = (s.headpos + 1) % 64 := by
  unfold LowPass.processFrame
  dsimp only
  rw [hfl]
  have h : ((s.headpos + 1) % U32) &&& (64 - 1) = (s.headpos + 1) % 64 := by
    norm_num [unsignedInc_and63]
  split <;> simpa using h

/-- Decimation bookkeeping of the frame loop: starting below the factor,
processing `n` frames emits `channels * ((count + n) / decimation)` output
samples and leaves the counter at `(count + n) % decimation`. -/
theorem processLoop_length (ch : ℕ) (n : ℕ) :
    ∀ (s : LowPass) (buf : List ℝ), 0 < s.decimation → s.decimation < U32 →
      s.decimationCount < s.decimation →
      (LowPass.processLoop ch n s buf).2.length
          = ch * ((s.decimationCount + n) / s.decimation)
      ∧ (LowPass.processLoop ch n s buf).1.decimationCount
          = (s.decimationCount + n) % s.decimation
      ∧ (LowPass.processLoop ch n s buf).1.decimation = s.decimation := by
  induction n with
  | zero =>
      intro s buf hd hU hc
      simp [LowPass.processLoop, Nat.div_eq_of_lt hc, Nat.mod_eq_of_lt hc]
  | succ n ih =>
      intro s buf hd hU hc
      have hinc : (s.decimationCount + 1) % U32 = s.decimationCount + 1 :=
        Nat.mod_eq_of_lt (by omega)
      simp only [LowPass.processLoop]
      by_cases hemit : (s.decimationCount + 1) % U32 = s.decimation
      · have heq : s.decimationCount + 1 = s.decimation := by omega
        obtain ⟨hc0, hlen, _⟩ := processFrame_emit s ch (buf.take ch) hemit
        have hdec := processFrame_decimation s ch (buf.take ch)
        obtain ⟨L1, L2, L3⟩ := ih (s.processFrame ch (buf.take ch)).1 (buf.drop ch)
          (by rw [hdec]; exact hd) (by rw [hdec]; exact hU) (by rw [hc0, hdec]; exact hd)
        rw [hdec] at L1 L2 L3
        rw [hc0] at L1 L2
        have harith : s.decimationCount + (n + 1) = n + s.decimation := by omega
        refine ⟨?_, ?_, L3⟩
        · rw [List.length_append, hlen, L1, harith, Nat.add_div_right n hd,
            Nat.zero_add, Nat.mul_succ]
          exact Nat.add_comm _ _
        · rw [L2, harith, Nat.zero_add, Nat.add_mod_right]
      · obtain ⟨hc1, hout⟩ := processFrame_noemit s ch (buf.take ch) hemit
        have hdec := processFrame_decimation s ch (buf.take ch)
        have hlt : (s.decimationCount + 1) % U32 < s.decimation := by omega
        obtain ⟨L1, L2, L3⟩ := ih (s.processFrame ch (buf.take ch)).1 (buf.drop ch)
          (by rw [hdec]; exact hd) (by rw [hdec]; exact hU) (by rw [hc1, hdec]; exact hlt)
        rw [hdec] at L1 L2 L3
        rw [hc1, hinc] at L1 L2
        have harith : s.decimationCount + 1 + n = s.decimationCount + (n + 1) := by omega
        refine ⟨?_, ?_, L3⟩
        · rw [List.length_append, hout, List.length_nil, Nat.zero_add, L1, harith]
        · rw [L2, harith]

/-- Division bookkeeping used when chaining `process` calls. -/
theorem div_accum (d a b : ℕ) (hd : 0 < d) :
    a / d + (a % d + b) / d = (a + b) / d := by
  conv_rhs => rw [← Nat.div_add_mod a d]
  rw [Nat.add_assoc, Nat.mul_add_div hd]

/-- Streaming across call boundaries: the counter state threads through a
list of `process` calls exactly as it would through one concatenated call,
so the total output length is `channels * (total frames / decimation)`. -/
theorem runCalls_length (ch : ℕ) (bufs : List (List ℝ)) :
    ∀ s : LowPass, 0 < s.decimation → s.decimation < U32 →
      s.decimationCount < s.decimation →
      (LowPass.runCalls ch s bufs).2.length
          = ch * ((s.decimationCount + (bufs.map fun b => b.length / ch).sum)
              / s.decimation)
      ∧ (LowPass.runCalls ch s bufs).1.decimationCount
          = (s.decimationCount + (bufs.map fun b => b.length / ch).sum) % s.decimation
      ∧ (LowPass.runCalls ch s bufs).1.decimation = s.decimation := by
  induction bufs with
  | nil =>
      intro s hd hU hc
      simp [LowPass.runCalls, Nat.div_eq_of_lt hc, Nat.mod_eq_of_lt hc]
  | cons b bs ih =>
      intro s hd hU hc
      simp only [LowPass.runCalls, LowPass.process, List.map_cons, List.sum_cons]
      obtain ⟨P1, P2, P3⟩ := processLoop_length ch (b.length / ch) s b hd hU hc
      obtain ⟨R1, R2, R3⟩ := ih (LowPass.processLoop ch (b.length / ch) s b).1
        (by rw [P3]; exact hd) (by rw [P3]; exact hU)
        (by rw [P2, P3]; exact Nat.mod_lt _ hd)
      rw [P2] at R1 R2
      rw [P3] at R1 R2 R3
      refine ⟨?_, ?_, R3⟩
      · rw [List.length_append, P1, R1, ← Nat.mul_add,
          div_accum _ _ _ hd, Nat.add_assoc]
      · rw [R2, Nat.mod_add_mod, Nat.add_assoc]

/-- Bin `m` is written by loop iteration `k` of the spectrum fill (either
directly or as the mirror target) precisely when `k` is the `mirrorIdx` of
`m`. -/
theorem specWrite_targets_iff (N e k m : ℕ) (hN : N = 2 ^ e) (hk : k ≤ N / 2)
    (hm : m < N) :
    (m = k ∨ m = (N - k) &&& (N - 1)) ↔ mirrorIdx N m = k := by
  have hN1 : 1 ≤ N := by
    subst hN
    exact Nat.one_le_two_pow
  have hNeven : N = 1 ∨ N % 2 = 0 := by
    subst hN
    rcases e with _ | e
    · exact Or.inl rfl
    · exact Or.inr (by simp [Nat.pow_succ, Nat.mul_mod])
  have hmask : (N - k) &&& (N - 1) = (N - k) % N := by
    subst hN
    exact Nat.and_pow_two_sub_one_eq_mod _ _
  have hmod : (N - k) % N = if k = 0 then 0 else N - k := by
    split_ifs with h0
    · subst h0
      simp
    · exact Nat.mod_eq_of_lt (by omega)
  rw [hmask, hmod]
  unfold mirrorIdx
  rcases hNeven with hN2 | hN2 <;> split_ifs with hhalf h0 <;> omega

/-- Invariant of the spectrum-filling fold: after the first `k` iterations,
bin `m` holds `specVal` of its writer if that writer has run, and the
previous buffer contents otherwise. -/
theorem buildSpecAux (N maxbin e : ℕ) (hN : N = 2 ^ e) (g : ℕ → ℂ) (k : ℕ) :
    k ≤ N / 2 + 1 → ∀ m, m < N →
      ((List.range k).foldl (fun f n => specWrite N f n (specVal maxbin n)) g) m
        = if mirrorIdx N m < k then specVal maxbin (mirrorIdx N m) else g m := by
  induction k with
  | zero =>
      intro _ m _
      simp
  | succ k ih =>
      intro hk m hm
      rw [List.range_succ, List.foldl_append, List.foldl_cons, List.foldl_nil]
      have houter : specWrite N
            ((List.range k).foldl (fun f n => specWrite N f n (specVal maxbin n)) g)
            k (specVal maxbin k) m
          = if m = k ∨ m = (N - k) &&& (N - 1) then specVal maxbin k
            else ((List.range k).foldl (fun f n => specWrite N f n (specVal maxbin n)) g) m :=
        rfl
      rw [houter]
      by_cases hw : m = k ∨ m = (N - k) &&& (N - 1)
      · rw [if_pos hw]
        have hmk : mirrorIdx N m = k :=
          (specWrite_targets_iff N e k m hN (by omega) hm).mp hw
        rw [hmk, if_pos (by omega : k < k + 1)]
      · rw [if_neg hw, ih (by omega) m hm]
        have hmk : mirrorIdx N m ≠ k := fun hc =>
          hw ((specWrite_targets_iff N e k m hN (by omega) hm).mpr hc)
        by_cases hlt : mirrorIdx N m < k
        · rw [if_pos hlt, if_pos (by omega)]
        · rw [if_neg hlt, if_neg (by omega)]

/-- Pointwise value of the freshly filled design spectrum: every bin below
`N` is overwritten with the indicator of its `mirrorIdx`, independently of
the previous buffer contents. -/
theorem buildSpec_apply (N maxbin e : ℕ) (hN : N = 2 ^ e) (g : ℕ → ℂ) (m : ℕ)
    (hm : m < N) :
    buildSpec N maxbin g m = specVal maxbin (mirrorIdx N m) := by
  unfold buildSpec
  rw [buildSpecAux N maxbin e hN g (N / 2 + 1) (le_refl _) m hm]
  have hb : mirrorIdx N m ≤ N / 2 := by
    unfold mirrorIdx
    split_ifs with h
    · exact h
    · omega
  rw [if_pos (by omega)]

/-- The DFT reads only bins below `N`. -/
theorem dftInv_congr {N : ℕ} {f g : ℕ → ℂ} (h : ∀ m, m < N → f m = g m) (k : ℕ) :
    dftInv N f k = dftInv N g k := by
  unfold dftInv
  exact Finset.sum_congr rfl fun m hm => by rw [h m (Finset.mem_range.mp hm)]

/-- The pointwise value of the code's spectrum fill coincides with the
spec's mirrored reference spectrum. -/
theorem refSpectrum_eq_specVal (N maxbin m : ℕ) :
    specVal maxbin (mirrorIdx N m) = refSpectrum N maxbin m := by
  unfold specVal mirrorIdx refSpectrum
  split_ifs <;> rfl

/-- `recalculate` reads the state's design parameters but not the previous
spectrum or coefficients: the resulting taps depend only on
(`_firLength`, `_passband`, `window`) and the input rate. -/
theorem recalc_coeff_ext (rate e : ℕ) (s t : LowPass) (he : s.firLength = 2 ^ e)
    (ht1 : t.firLength = s.firLength) (ht2 : t.passband = s.passband)
    (ht3 : t.window = s.window) :
    (t.recalculate rate).coeff = (s.recalculate rate).coeff := by
  funext n
  show (dftInv t.firLength
      (buildSpec t.firLength ((t.firLength * t.passband) % U32 / rate / 2) t.spec)
      ((n + t.firLength / 2) &&& (t.firLength - 1))).re * t.window n
    = (dftInv s.firLength
      (buildSpec s.firLength ((s.firLength * s.passband) % U32 / rate / 2) s.spec)
      ((n + s.firLength / 2) &&& (s.firLength - 1))).re * s.window n
  rw [ht1, ht2, ht3]
  congr 1
  congr 1
  apply dftInv_congr
  intro m hm
  rw [buildSpec_apply s.firLength _ e he t.spec m hm,
    buildSpec_apply s.firLength _ e he s.spec m hm]

/-- The scaled reference window is strictly positive: `0.54 - 0.46 cos θ`
is bounded below by `0.08`. -/
theorem refWindow_scaled_pos (N n : ℕ) (hN : 0 < N) :
    0 < (N : ℝ) * refWindow N n := by
  unfold refWindow
  rw [mul_comm, div_mul_cancel₀ _ (by positivity : (N : ℝ) ≠ 0)]
  nlinarith [Real.cos_le_one (2 * Real.pi * (n : ℝ) / ((N - 1 : ℕ) : ℝ))]

/-- C8: the redesign is deterministic and idempotent in
(`passbandHz`, `tapCount`, `inputSampleRate`): running `recalculate` twice
with an unchanged passband yields identical `TapCoefficients`, and any two
states agreeing on `_firLength`, `_passband` and the window produce
identical `TapCoefficients` (in particular the previous spectrum and
coefficient contents are irrelevant). -/
theorem recalculate_idempotent_deterministic (s t : LowPass) (rate e : ℕ)
    (he : s.firLength = 2 ^ e) (ht1 : t.firLength = s.firLength)
    (ht2 : t.passband = s.passband) (ht3 : t.window = s.window) :
    ((s.recalculate rate).recalculate rate).coeff = (s.recalculate rate).coeff
    ∧ (t.recalculate rate).coeff = (s.recalculate rate).coeff :=
  ⟨recalc_coeff_ext rate e s (s.recalculate rate) he rfl rfl rfl,
   recalc_coeff_ext rate e s t he ht1 ht2 ht3⟩

/-- Witness for C8 at a concrete running state. -/
theorem recalculate_idempotent_deterministic_witness :
    ((sRun.recalculate 48000).recalculate 48000).coeff = (sRun.recalculate 48000).coeff
    ∧ (sRun.recalculate 48000).coeff = (sRun.recalculate 48000).coeff :=
  recalculate_idempotent_deterministic sRun sRun 48000 6 (by norm_num [sRun]) rfl rfl rfl

/-- C1 (amended): for a power-of-two `tapCount = _firLength ≥ 2` whose
product with the passband does not overflow the 32-bit `maxbin`
computation, and for a state whose window was built by `init`,
`recalculate` computes exactly the reference `TapCoefficients` of the spec:
inverse DFT of the mirrored brick-wall spectrum, re-centred by
`tapCount/2`, times the Hamming window. -/
theorem recalculate_matches_reference (s : LowPass) (rate e n : ℕ)
    (he : s.firLength = 2 ^ e) (_h1e : 1 ≤ e)
    (hov : s.firLength * s.passband < U32) (_hn : n < s.firLength)
    (hw : s.window = windowFun s.firLength) :
    (s.recalculate rate).coeff n = refTap s.firLength s.passband rate n := by
  have hmask : ∀ x : ℕ, x &&& (s.firLength - 1) = x % s.firLength := by
    intro x
    rw [he]
    exact Nat.and_pow_two_sub_one_eq_mod x e
  have hmb : (s.firLength * s.passband) % U32 = s.firLength * s.passband :=
    Nat.mod_eq_of_lt hov
  show (dftInv s.firLength
      (buildSpec s.firLength ((s.firLength * s.passband) % U32 / rate / 2) s.spec)
      ((n + s.firLength / 2) &&& (s.firLength - 1))).re * s.window n
    = refTap s.firLength s.passband rate n
  rw [hmb, hmask, hw]
  unfold refTap
  have hbins : ∀ m, m < s.firLength →
      buildSpec s.firLength (s.firLength * s.passband / rate / 2) s.spec m
        = refSpectrum s.firLength (s.firLength * s.passband / rate / 2) m := by
    intro m hm
    rw [buildSpec_apply s.firLength _ e he s.spec m hm, refSpectrum_eq_specVal]
  rw [dftInv_congr hbins]
  rfl

/-- Witness for the amended C1 at the spec's worked example
(`tapCount = 64`, `passbandHz = 6000`, `inputSampleRate = 48000`). -/
theorem recalculate_matches_reference_witness :
    (sRun.recalculate 48000).coeff 0 = refTap sRun.firLength sRun.passband 48000 0 :=
  recalculate_matches_reference sRun 48000 6 0 (by norm_num [sRun]) (by norm_num)
    (by norm_num [sRun, U32]) (by norm_num [sRun]) rfl

/-- Counterexample to C1 as stated (for EVERY `passbandHz`): at
`tapCount = 64`, `passbandHz = 67108864`, `inputSampleRate = 1`, the C
code's unsigned 32-bit product `64 * 67108864 = 2^32` wraps to 0, so
`maxbin = 0` and every computed tap is 0, while the reference formula has
`maxbin = 2^31`, an all-ones spectrum, and a non-zero tap at index 32. -/
theorem recalculate_reference_counterexample :
    (sOverflow.recalculate 1).coeff 32 ≠ refTap 64 67108864 1 32 := by
  have hL : (sOverflow.recalculate 1).coeff 32 = 0 := by
    show (dftInv 64 (buildSpec 64 ((64 * 67108864) % U32 / 1 / 2) (fun _ => 0))
        ((32 + 64 / 2) &&& (64 - 1))).re * windowFun 64 32 = 0
    have hmb : (64 * 67108864) % U32 / 1 / 2 = 0 := by norm_num [U32]
    have hbin : (32 + 64 / 2) &&& (64 - 1) = 0 := by decide
    rw [hmb, hbin]
    have hdz : dftInv 64 (buildSpec 64 0 (fun _ => 0)) 0 = 0 := by
      unfold dftInv
      apply Finset.sum_eq_zero
      intro m hm
      rw [buildSpec_apply 64 0 6 (by norm_num) _ m (Finset.mem_range.mp hm)]
      have hv : specVal 0 (mirrorIdx 64 m) = 0 := by
        unfold specVal
        simp
      rw [hv, zero_mul]
    rw [hdz]
    simp
  have hpos : 0 < refTap 64 67108864 1 32 := by
    unfold refTap
    have hmaxbin : 64 * 67108864 / 1 / 2 = 2147483648 := by norm_num
    have hbin : (32 + 64 / 2) % 64 = 0 := by norm_num
    rw [hmaxbin, hbin]
    have hone : ∀ m, m < 64 → refSpectrum 64 2147483648 m = 1 := by
      intro m hm
      unfold refSpectrum
      split_ifs <;> first | rfl | omega
    have hsum : dftInv 64 (refSpectrum 64 2147483648) 0 = 64 := by
      unfold dftInv
      have hterm : ∀ m ∈ Finset.range 64,
          refSpectrum 64 2147483648 m
            * Complex.exp (2 * (Real.pi : ℂ) * Complex.I * (m : ℂ) * ((0 : ℕ) : ℂ)
                / ((64 : ℕ) : ℂ)) = 1 := by
        intro m hm
        rw [hone m (Finset.mem_range.mp hm)]
        simp
      rw [Finset.sum_congr rfl hterm]
      simp
    rw [hsum]
    have hre : ((64 : ℂ)).re = 64 := by norm_num
    rw [hre]
    have := refWindow_scaled_pos 64 32 (by norm_num)
    simpa using this
  rw [hL]
  exact ne_of_lt hpos

/-- The frame loop only looks at the first `n * channels` samples of the
buffer when running `n` frame iterations. -/
theorem processLoop_take (ch : ℕ) (n : ℕ) :
    ∀ (s : LowPass) (buf : List ℝ),
      LowPass.processLoop ch n s (buf.take (n * ch)) = LowPass.processLoop ch n s buf := by
  induction n with
  | zero => intro s buf; rfl
  | succ n ih =>
      intro s buf
      simp only [LowPass.processLoop]
      have h1 : (buf.take ((n + 1) * ch)).take ch = buf.take ch := by
        rw [List.take_take]
        congr 1
        refine Nat.min_eq_left ?_
        calc ch = 1 * ch := (Nat.one_mul ch).symm
          _ ≤ (n + 1) * ch := Nat.mul_le_mul_right ch (by omega)
      have h2 : (buf.take ((n + 1) * ch)).drop ch = (buf.drop ch).take (n * ch) := by
        rw [List.drop_take]
        congr 1
        rw [Nat.succ_mul, Nat.add_sub_cancel]
      rw [h1, h2, ih]

/-- C2: per-frame semantics of `process`.  After the per-channel sample is
stored at `headpos`, the counter is incremented (32-bit unsigned); exactly
when the incremented value equals `_decimation`, one output frame is
emitted whose per-channel value is
`Σ_{tap<64} TapCoefficients[tap] * history[(headpos - tap) mod 64]`
(the post-store history, the index written `(headpos + 64 - tap) % 64`)
and the counter resets to 0; `headpos` advances to `(headpos + 1) % 64` in
both cases. -/
theorem process_frame_semantics (s : LowPass) (ch : ℕ) (frame : List ℝ)
    (hfl : s.firLength = 64) (hh : s.headpos < 64) :
    (s.processFrame ch frame).1.fir
        = (fun c i => if c < ch ∧ i = s.headpos then frame.getD c 0 else s.fir c i)
    ∧ (s.processFrame ch frame).1.headpos = (s.headpos + 1) % 64
    ∧ ((s.decimationCount + 1) % U32 = s.decimation →
        (s.processFrame ch frame).2
            = (List.range ch).map (fun c => ∑ tap in Finset.range 64,
                s.coeff tap
                  * (s.processFrame ch frame).1.fir c ((s.headpos + 64 - tap) % 64))
          ∧ (s.processFrame ch frame).1.decimationCount = 0)
    ∧ ((s.decimationCount + 1) % U32 ≠ s.decimation →
        (s.processFrame ch frame).2 = []
          ∧ (s.processFrame ch frame).1.decimationCount
              = (s.decimationCount + 1) % U32) := by
  refine ⟨processFrame_fir s ch frame, processFrame_headpos s ch frame hfl, ?_, ?_⟩
  · intro hemit
    obtain ⟨hc0, _, hout⟩ := processFrame_emit s ch frame hemit
    refine ⟨?_, hc0⟩
    rw [hout, processFrame_fir]
    refine List.map_congr_left ?_
    intro c _
    rw [hfl, convLoop_eq _ _ 64 0 s.headpos 0 hh, zero_add]
    refine Finset.sum_congr rfl ?_
    intro j hj
    rw [Nat.zero_add, ringIdx_reindex s.headpos j (Finset.mem_range.mp hj)]
  · intro hnoemit
    obtain ⟨hc1, hout⟩ := processFrame_noemit s ch frame hnoemit
    exact ⟨hout, hc1⟩

/-- Witness for C2 at a concrete running state and one concrete frame. -/
theorem process_frame_semantics_witness :
    (sRun.processFrame 1 [1]).1.fir
        = (fun c i => if c < 1 ∧ i = sRun.headpos then [(1 : ℝ)].getD c 0 else sRun.fir c i)
    ∧ (sRun.processFrame 1 [1]).1.headpos = (sRun.headpos + 1) % 64
    ∧ ((sRun.decimationCount + 1) % U32 = sRun.decimation →
        (sRun.processFrame 1 [1]).2
            = (List.range 1).map (fun c => ∑ tap in Finset.range 64,
                sRun.coeff tap
                  * (sRun.processFrame 1 [1]).1.fir c ((sRun.headpos + 64 - tap) % 64))
          ∧ (sRun.processFrame 1 [1]).1.decimationCount = 0)
    ∧ ((sRun.decimationCount + 1) % U32 ≠ sRun.decimation →
        (sRun.processFrame 1 [1]).2 = []
          ∧ (sRun.processFrame 1 [1]).1.decimationCount
              = (sRun.decimationCount + 1) % U32) :=
  process_frame_semantics sRun 1 [1] rfl (by norm_num [sRun])

/-- C3: starting with the counter at 0, feeding a total of
`k * decimationFactor` input frames, split in any way across any number of
`process` calls, yields exactly `k` output frames per channel (a flat
output of `k * channels` samples): the counter and cursor persist across
call boundaries, so the split does not affect the output count.  The bound
`decimation < 2^32` records that `_decimation` is an `unsigned int`. -/
theorem stream_decimation_output_count (s : LowPass) (ch k : ℕ)
    (bufs : List (List ℝ)) (hd : 0 < s.decimation) (hU : s.decimation < U32)
    (hc : s.decimationCount = 0)
    (htot : (bufs.map fun b => b.length / ch).sum = k * s.decimation) :
    (LowPass.runCalls ch s bufs).2.length = k * ch := by
  obtain ⟨L, _, _⟩ := runCalls_length ch bufs s hd hU (by omega)
  rw [L, hc, htot, Nat.zero_add, Nat.mul_div_cancel _ hd]
  exact Nat.mul_comm ch k

/-- Witness for C3: decimation 2, two calls of one frame each, one output
frame. -/
theorem stream_decimation_output_count_witness :
    (LowPass.runCalls 1 sRun [[0], [0]]).2.length = 1 * 1 :=
  stream_decimation_output_count sRun 1 1 [[0], [0]]
    (by norm_num [sRun]) (by norm_num [sRun, U32]) rfl (by norm_num [sRun])

/-- C10: `process` computes `inputFrames = size / channels` (integer
division) and processes exactly that many frames, so an input block whose
sample count is not a multiple of the channel count is truncated to its
largest whole-frame prefix and the trailing partial-frame samples are
silently ignored; the call is never rejected (`process` is total and the C
function returns `true` unconditionally). -/
theorem process_truncates_partial_frame (s : LowPass) (ch : ℕ) (buf : List ℝ) :
    s.process ch buf = LowPass.processLoop ch (buf.length / ch) s buf
    ∧ s.process ch buf = s.process ch (buf.take (buf.length / ch * ch)) := by
  refine ⟨rfl, ?_⟩
  unfold LowPass.process
  by_cases hch : ch = 0
  · subst hch
    simp [Nat.div_zero, Nat.mul_zero, List.take_zero, LowPass.processLoop]
  · have hpos : 0 < ch := Nat.pos_of_ne_zero hch
    have hlen : (buf.take (buf.length / ch * ch)).length = buf.length / ch * ch := by
      rw [List.length_take]
      exact Nat.min_eq_left (Nat.div_mul_le_self _ _)
    rw [hlen, Nat.mul_div_cancel _ hpos]
    exact (processLoop_take ch (buf.length / ch) s buf).symm

/-- C6: setting the passband while `Running` stores the new passband and
triggers an immediate redesign (`recalculate` on the updated state), leaving
the per-channel history `fir`, the cursor `headpos`, the `decimationCount`
and every configuration field unchanged: the redesign rewrites only the
design-side state `spec` and `coeff`. -/
theorem setPassband_running_redesigns (s : LowPass) (inputRate hz : ℕ) :
    s.setPassband true inputRate hz
      = LowPass.recalculate { s with passband := hz } inputRate
    ∧ (s.setPassband true inputRate hz).fir = s.fir
    ∧ (s.setPassband true inputRate hz).headpos = s.headpos
    ∧ (s.setPassband true inputRate hz).decimationCount = s.decimationCount
    ∧ (s.setPassband true inputRate hz).passband = hz
    ∧ (s.setPassband true inputRate hz).decimation = s.decimation
    ∧ (s.setPassband true inputRate hz).reqOutputRate = s.reqOutputRate
    ∧ (s.setPassband true inputRate hz).outputSampleRate = s.outputSampleRate
    ∧ (s.setPassband true inputRate hz).outputChannels = s.outputChannels
    ∧ (s.setPassband true inputRate hz).window = s.window :=
  ⟨rfl, rfl, rfl, rfl, rfl, rfl, rfl, rfl, rfl, rfl⟩

/-- C7: `setDecimation` and `setOutputSampleRate` are complete no-ops while
`Running`; when not running, each stores its value and clears the other
field (whichever was set last wins). -/
theorem setters_noop_while_running (s : LowPass) (n hz : ℕ) :
    s.setDecimation true n = s
    ∧ s.setOutputSampleRate true hz = s
    ∧ s.setDecimation false n = { s with decimation := n, reqOutputRate := 0 }
    ∧ s.setOutputSampleRate false hz = { s with reqOutputRate := hz, decimation := 0 } :=
  ⟨rfl, rfl, rfl, rfl⟩

/-- C4: `init` (the start operation) fails with a `ConfigurationError` if
and only if either neither `_decimation` nor `_reqOutputRate` is set, or the
derived output-rate/decimation pair does not satisfy
`outputSampleRate * decimation = inputSampleRate`. -/
theorem init_error_iff (s : LowPass) (inputRate inputCh : ℕ) :
    (∃ err, s.init inputRate inputCh = Except.error err) ↔
      ((s.reqOutputRate = 0 ∧ s.decimation = 0) ∨
        derivedOutputRate s inputRate * derivedDecimation s inputRate ≠ inputRate) := by
  unfold LowPass.init initCheck derivedOutputRate derivedDecimation
  split_ifs with h1 h2 h3 h4 <;> simp_all <;> omega

/-- C5: after every successful start, the derived fields satisfy
`outputSampleRate * decimation = inputSampleRate` exactly. -/
theorem init_ok_rate_relation (s : LowPass) (inputRate inputCh : ℕ) (t : LowPass)
    (h : s.init inputRate inputCh = Except.ok t) :
    t.outputSampleRate * t.decimation = inputRate := by
  unfold LowPass.init initCheck at h
  by_cases h1 : 0 < s.reqOutputRate
  · rw [if_pos h1] at h
    by_cases h2 : s.reqOutputRate * (inputRate / s.reqOutputRate) ≠ inputRate
    · rw [if_pos h2] at h
      exact absurd h (by simp)
    · rw [if_neg h2] at h
      push_neg at h2
      obtain rfl : _ = t := by injection h
      show s.reqOutputRate * (inputRate / s.reqOutputRate) = inputRate
      exact h2
  · rw [if_neg h1] at h
    by_cases h3 : 0 < s.decimation
    · rw [if_pos h3] at h
      by_cases h4 : inputRate / s.decimation * s.decimation ≠ inputRate
      · rw [if_pos h4] at h
        exact absurd h (by simp)
      · rw [if_neg h4] at h
        push_neg at h4
        obtain rfl : _ = t := by injection h
        show inputRate / s.decimation * s.decimation = inputRate
        exact h4
    · rw [if_neg h3] at h
      exact absurd h (by simp)

/-- Witness for C5 at a concrete successful start. -/
theorem init_ok_rate_relation_witness :
    initWitState.outputSampleRate * initWitState.decimation = 48000 :=
  init_ok_rate_relation mk0 48000 2 initWitState rfl

/-- C9: a freshly constructed `LowPass` has `_reqOutputRate` preset to the
non-zero `DEFAULT_SAMPLE_RATE`, so a start without any setter call never
takes the neither-specified error branch: any start failure is the
rate-ratio check. -/
theorem mk_default_rate_no_neither (o c : ℕ) (sp : ℕ → ℂ) (w co : ℕ → ℝ)
    (f : ℕ → ℕ → ℝ) (inputRate inputCh : ℕ) (err : ConfigurationError)
    (h : (mkLowPass o c sp w co f).init inputRate inputCh = Except.error err) :
    (mkLowPass o c sp w co f).reqOutputRate = DEFAULT_SAMPLE_RATE
    ∧ 0 < DEFAULT_SAMPLE_RATE
    ∧ err = ConfigurationError.nonIntegerRatio := by
  refine ⟨rfl, by norm_num [DEFAULT_SAMPLE_RATE], ?_⟩
  unfold LowPass.init initCheck at h
  simp only [mkLowPass, DEFAULT_SAMPLE_RATE] at h
  norm_num at h
  split_ifs at h with hx
  all_goals simp_all

/-- Witness for C9 at a concrete failing start (input rate 7 is not a
multiple of the default output rate 48000). -/
theorem mk_default_rate_no_neither_witness :
    (mkLowPass 0 0 (fun _ => 0) (fun _ => 0) (fun _ => 0) (fun _ _ => 0)).reqOutputRate
        = DEFAULT_SAMPLE_RATE
    ∧ 0 < DEFAULT_SAMPLE_RATE
    ∧ ConfigurationError.nonIntegerRatio = ConfigurationError.nonIntegerRatio :=
  mk_default_rate_no_neither 0 0 (fun _ => 0) (fun _ => 0) (fun _ => 0) (fun _ _ => 0)
    7 0 ConfigurationError.nonIntegerRatio rfl

end Webradio
